import Mathlib

/-!
# Verification of the Response-To-Zip text-to-files parser

Shallow embedding of `parseResponse` from `src/components/ResponseParser.tsx`
and `saveChanges` from the CodeEditor component.  JS strings are modelled at
the character-list level (`List Char`), with `String` wrappers at the
interface.  Each JS regular expression used by the parser is translated into
an explicit deterministic matcher that reproduces the engine's
greedy/lazy backtracking behaviour for that pattern.

Whitespace (`\s` and `trim`) is modelled by `Char.isWhitespace`
(space, tab, CR, LF); exotic Unicode whitespace is out of scope.
The JS regex `.` (any char except line terminators) is modelled as
"not LF, CR, U+2028, U+2029".
-/

/-- JS whitespace class (`\s`, and the class removed by `String.prototype.trim`),
restricted to the common characters space, tab, CR, LF. -/
def isWS (c : Char) : Bool := c.isWhitespace

/-- JS word character class `\w` = `[A-Za-z0-9_]`. -/
def isWordChar (c : Char) : Bool := c.isAlphanum || c = '_'

/-- Characters matched by the JS regex `.`: anything except line terminators. -/
def isRegexAny (c : Char) : Bool :=
  !(c = '\n' || c = '\r' || c.toNat = 0x2028 || c.toNat = 0x2029)

/-- JS `String.prototype.trim`: remove leading and trailing whitespace. -/
def trim (s : List Char) : List Char :=
  ((s.dropWhile isWS).reverse.dropWhile isWS).reverse

/-- JS `content.split('\n')`: split a character list at every newline.
`splitOnNl [] = [[]]`, matching `"".split('\n') = [""]`. -/
def splitOnNl : List Char → List (List Char)
  | [] => [[]]
  | c :: cs =>
    if c = '\n' then [] :: splitOnNl cs
    else
      match splitOnNl cs with
      | [] => [[c]]
      | l :: ls => (c :: l) :: ls

/-- JS `lines.join('\n')`. -/
def intercalateNl : List (List Char) → List Char
  | [] => []
  | [l] => l
  | l :: ls => l ++ '\n' :: intercalateNl ls

/-! ## Line classifiers (translated from the parser's regexes) -/

/-- `line.trim().match(/^```(\w+)?/)`: the pattern is anchored only at the
start, and the language-tag group is optional, so the test succeeds exactly
when the trimmed line starts with three backticks. -/
def isCodeBlockLine (line : List Char) : Bool :=
  ("```".data).isPrefixOf (trim line)

/-- `/^[\s]*[├└│]\s*/`: after optional leading whitespace, a box-drawing
connector character (the trailing `\s*` is unanchored, hence vacuous). -/
def isTreeConnector (line : List Char) : Bool :=
  match line.dropWhile isWS with
  | c :: _ => c = '├' || c = '└' || c = '│'
  | [] => false

/-- `/^[\s]*[├└]\─\─/`: box connector followed by two horizontal bars. -/
def isTreeBranch (line : List Char) : Bool :=
  match line.dropWhile isWS with
  | c :: d :: e :: _ => (c = '├' || c = '└') && d = '─' && e = '─'
  | _ => false

/-- `/^[\s]*[│]\s*$/`: a lone vertical bar surrounded by whitespace. -/
def isTreeBar (line : List Char) : Bool :=
  match line.dropWhile isWS with
  | c :: rest => c = '│' && rest.all isWS
  | [] => false

/-- JS `String.prototype.includes`: substring occurrence test. -/
def hasSub (pat : List Char) : List Char → Bool
  | [] => pat.isEmpty
  | c :: rest => pat.isPrefixOf (c :: rest) || hasSub pat rest

/-- `line.trim().endsWith('/') && !line.includes('---')`. -/
def isSlashTail (line : List Char) : Bool :=
  (match (trim line).reverse with
   | c :: _ => c = '/'
   | [] => false) && !(hasSub ("---".data) line)

/-- The folder-structure skip condition (four disjuncts, source lines 105-108). -/
def isFolderLine (line : List Char) : Bool :=
  isTreeConnector line || isTreeBranch line || isTreeBar line || isSlashTail line

/-! ### Comment-style marker: `/^\s*\/\/\s+(.+\.\w+)\s*$/`

The capture group is matched with JS backtracking: `.+` is greedy, so the
literal `\.` binds to the rightmost dot whose suffix is a word run followed
only by whitespace; `\s+` is greedy, shortened only when needed to give
`.+` its mandatory first character. -/

/-- Capture search for `(.+\.\w+)\s*$` on a candidate tail.  `acc` is the text
already committed to `.+`; at each dot the matcher first tries to extend `.+`
past it (greediness of `.+` prefers the rightmost viable dot), then uses it
as the literal `\.`. -/
def commentCapAux : List Char → List Char → Option (List Char)
  | _, [] => none
  | acc, c :: rest =>
    if c = '.' then
      match commentCapAux (acc ++ [c]) rest with
      | some r => some r
      | none =>
        let b := rest.takeWhile isWordChar
        if !acc.isEmpty && !b.isEmpty && (rest.dropWhile isWordChar).all isWS then
          some (acc ++ '.' :: b)
        else none
    else if isRegexAny c then commentCapAux (acc ++ [c]) rest
    else none

/-- Try the `\s+` lengths from longest (greedy) down to one: `m` is the number
of whitespace characters still allowed to `\s+`; the rest go to the capture. -/
def commentWsLoop (rest : List Char) : Nat → Option (List Char)
  | 0 => none
  | m + 1 =>
    match commentCapAux [] (rest.drop (m + 1)) with
    | some cap => some cap
    | none => commentWsLoop rest m

/-- `line.match(/^\s*\/\/\s+(.+\.\w+)\s*$/)`, returning the captured group. -/
def commentFileMatch (line : List Char) : Option (List Char) :=
  let s1 := line.dropWhile isWS
  if ("//".data).isPrefixOf s1 then
    let rest := s1.drop 2
    commentWsLoop rest (rest.takeWhile isWS).length
  else none

/-! ### Bracketed marker: `/^\s*\\?---\s*\[?([^\[\]]+?)\]?\s*---\s*$/` -/

/-- `\s*---\s*$` at the given position: the first `\s*` must stop exactly at
the maximal whitespace run (only `-` can follow), then three dashes, then
only whitespace to the end. -/
def tailDashes (r : List Char) : Bool :=
  let r' := r.dropWhile isWS
  ("---".data).isPrefixOf r' && (r'.drop 3).all isWS

/-- `\]?\s*---\s*$`: the optional `]` is consumed when present (skipping it
cannot succeed, since `\s*---` cannot start with `]`). -/
def afterBracketCap (r : List Char) : Bool :=
  match r with
  | c :: r' => if c = ']' then tailDashes r' else tailDashes r
  | [] => false

/-- Lazy capture `([^\[\]]+?)`: with `acc` (nonempty) captured, first test the
tail (lazy = shortest first), else extend by one non-bracket character. -/
def bracketCapAux : List Char → List Char → Option (List Char)
  | _, [] => none
  | acc, c :: r' =>
    if afterBracketCap (c :: r') then some acc
    else if c = '[' || c = ']' then none
    else bracketCapAux (acc ++ [c]) r'

/-- First capture character (the lazy group still needs at least one). -/
def bracketCapStart : List Char → Option (List Char)
  | [] => none
  | c :: r' =>
    if c = '[' || c = ']' then none
    else bracketCapAux [c] r'

/-- `\[?` then the capture: a leading `[` is consumed when present (the
capture class excludes `[`, so leaving it unconsumed cannot succeed). -/
def bracketAtPos : List Char → Option (List Char)
  | '[' :: p' => bracketCapStart p'
  | p => bracketCapStart p

/-- Greedy middle `\s*`: try consuming `m` whitespace characters, from the
maximal run length down to zero. -/
def bracketTryAux (rest : List Char) : Nat → Option (List Char)
  | 0 => bracketAtPos rest
  | m + 1 =>
    match bracketAtPos (rest.drop (m + 1)) with
    | some cap => some cap
    | none => bracketTryAux rest m

/-- `line.match(/^\s*\\?---\s*\[?([^\[\]]+?)\]?\s*---\s*$/)`, returning the
captured group. -/
def fileMarkerMatch (line : List Char) : Option (List Char) :=
  let s1 := line.dropWhile isWS
  let s2 := match s1 with
    | c :: r => if c = '\\' then r else s1
    | [] => s1
  if ("---".data).isPrefixOf s2 then
    let rest := s2.drop 3
    bracketTryAux rest (rest.takeWhile isWS).length
  else none

/-! ### Bare-dashed marker: `/^\s*\\?---\s*([^\-]+?)\s*---\s*$/` -/

/-- Lazy capture `([^\-]+?)` followed by `\s*---\s*$`. -/
def altCapAux : List Char → List Char → Option (List Char)
  | _, [] => none
  | acc, c :: r' =>
    if tailDashes (c :: r') then some acc
    else if c = '-' then none
    else altCapAux (acc ++ [c]) r'

/-- First capture character of the bare-dashed rule's group. -/
def altCapStart : List Char → Option (List Char)
  | [] => none
  | c :: r' =>
    if c = '-' then none
    else altCapAux [c] r'

/-- Greedy middle `\s*` of the bare-dashed rule. -/
def altTryAux (rest : List Char) : Nat → Option (List Char)
  | 0 => altCapStart rest
  | m + 1 =>
    match altCapStart (rest.drop (m + 1)) with
    | some cap => some cap
    | none => altTryAux rest m

/-- `line.match(/^\s*\\?---\s*([^\-]+?)\s*---\s*$/)`, returning the captured
group. -/
def altFileMarkerMatch (line : List Char) : Option (List Char) :=
  let s1 := line.dropWhile isWS
  let s2 := match s1 with
    | c :: r => if c = '\\' then r else s1
    | [] => s1
  if ("---".data).isPrefixOf s2 then
    let rest := s2.drop 3
    altTryAux rest (rest.takeWhile isWS).length
  else none

/-- A line is recognized by one of the three marker rules: comment-style,
bracketed, or bare-dashed (the latter additionally requires a dot in the
captured token, as checked by the source). -/
def isMarkerLine (line : List Char) : Bool :=
  (commentFileMatch line).isSome || (fileMarkerMatch line).isSome ||
    (match altFileMarkerMatch line with
     | some cap => cap.contains '.'
     | none => false)

/-! ## The scanner -/

/-- One recovered (path, content) record. -/
structure ParsedFile where
  path : String
  content : String
deriving DecidableEq, Repr

/-- The mutable state of the line scan in `parseResponse`. -/
structure ScanState where
  files : List ParsedFile
  currentFile : Option (List Char)
  currentContent : List (List Char)
  inCodeBlock : Bool
  skipNext : Bool
deriving DecidableEq, Repr

/-- Flush the open file, if any: `if (currentFile) files.push({path, content:
currentContent.join('\n').trim()})`.  JS truthiness makes the empty string
behave like "no open file". -/
def flushCurrent (st : ScanState) : List ParsedFile :=
  match st.currentFile with
  | some p =>
    if p.isEmpty then []
    else [⟨String.mk p, String.mk (trim (intercalateNl st.currentContent))⟩]
  | none => []

/-- Open a new file: flush the previous one, set the (trimmed) captured path,
reset the content buffer, and arm the skip-one-blank flag. -/
def openFile (st : ScanState) (cap : List Char) : ScanState :=
  { files := st.files ++ flushCurrent st
    currentFile := some (trim cap)
    currentContent := []
    inCodeBlock := st.inCodeBlock
    skipNext := true }

/-- Fallback: append the raw line when a file is open (JS truthiness: a null
or empty `currentFile` discards the line). -/
def appendLine (st : ScanState) (line : List Char) : ScanState :=
  match st.currentFile with
  | some p =>
    if p.isEmpty then st
    else { st with currentContent := st.currentContent ++ [line] }
  | none => st

/-- One iteration of the `for` loop over lines (source lines 88-170),
with the source's rule order: skip-blank, fence toggle, folder-structure
skip, comment marker, bracketed marker, bare-dashed marker, fallback. -/
def step (st : ScanState) (line : List Char) : ScanState :=
  if st.skipNext && (trim line).isEmpty then st
  else if isCodeBlockLine line then
    { st with skipNext := false, inCodeBlock := !st.inCodeBlock }
  else if isFolderLine line then { st with skipNext := false }
  else
    match commentFileMatch line with
    | some cap => openFile { st with skipNext := false } cap
    | none =>
      match fileMarkerMatch line with
      | some cap => openFile { st with skipNext := false } cap
      | none =>
        match altFileMarkerMatch line with
        | some cap =>
          if cap.contains '.' then openFile { st with skipNext := false } cap
          else appendLine { st with skipNext := false } line
        | none => appendLine { st with skipNext := false } line

/-- Initial scanner state. -/
def initState : ScanState := ⟨[], none, [], false, false⟩

/-- `parseResponse(content)`: split into lines, scan, flush the last file. -/
def parseResponse (content : String) : List ParsedFile :=
  let st := (splitOnNl content.data).foldl step initState
  st.files ++ flushCurrent st

/-- `saveChanges` from the CodeEditor component: rebuild the list with the
entry matching the selected path given the edited content. -/
def saveChanges (files : List ParsedFile) (selectedFile : String)
    (editedContent : String) : List ParsedFile :=
  files.map fun file =>
    if file.path = selectedFile then { file with content := editedContent }
    else file

/-! ## Line-splitting lemmas -/

theorem splitOnNl_ne_nil (cs : List Char) : splitOnNl cs ≠ [] := by
  induction cs with
  | nil => simp [splitOnNl]
  | cons c cs ih =>
    simp only [splitOnNl]
    split
    · simp
    · cases h : splitOnNl cs <;> simp

theorem headI_cons_tail {α : Type} [Inhabited α] (l : List α) (h : l ≠ []) :
    l.headI :: l.tail = l := by
  cases l with
  | nil => exact absurd rfl h
  | cons a t => rfl

theorem mem_splitOnNl_no_nl (cs : List Char) (l : List Char)
    (hl : l ∈ splitOnNl cs) : ∀ c ∈ l, c ≠ '\n' := by
  induction cs generalizing l with
  | nil =>
    simp [splitOnNl] at hl
    simp [hl]
  | cons c cs ih =>
    simp only [splitOnNl] at hl
    split at hl
    · rcases List.mem_cons.1 hl with h | h
      · simp [h]
      · exact ih l h
    · rename_i hc
      rcases h : splitOnNl cs with _ | ⟨l0, ls⟩
      · exact absurd h (splitOnNl_ne_nil cs)
      · rw [h] at hl
        rcases List.mem_cons.1 hl with h1 | h1
        · intro d hd
          rcases List.mem_cons.1 (h1 ▸ hd) with h2 | h2
          · simpa [h2] using hc
          · exact ih l0 (h ▸ List.mem_cons_self l0 ls) d h2
        · exact ih l (h ▸ List.mem_cons_of_mem l0 h1)

theorem splitOnNl_no_nl_eq (l : List Char) (h : ∀ c ∈ l, c ≠ '\n') :
    splitOnNl l = [l] := by
  induction l with
  | nil => rfl
  | cons c cs ih =>
    have hc : c ≠ '\n' := h c (List.mem_cons_self c cs)
    have ihe : splitOnNl cs = [cs] := ih fun d hd => h d (List.mem_cons_of_mem c hd)
    simp [splitOnNl, hc, ihe]

theorem splitOnNl_append_nl (l t : List Char) (h : ∀ c ∈ l, c ≠ '\n') :
    splitOnNl (l ++ '\n' :: t) = l :: splitOnNl t := by
  induction l with
  | nil => simp [splitOnNl]
  | cons c cs ih =>
    have hc : c ≠ '\n' := h c (List.mem_cons_self c cs)
    have ihe := ih fun d hd => h d (List.mem_cons_of_mem c hd)
    simp [splitOnNl, hc, ihe]

theorem splitOnNl_intercalateNl (ls : List (List Char)) (hne : ls ≠ [])
    (h : ∀ l ∈ ls, ∀ c ∈ l, c ≠ '\n') : splitOnNl (intercalateNl ls) = ls := by
  induction ls with
  | nil => exact absurd rfl hne
  | cons l rest ih =>
    cases rest with
    | nil =>
      simp only [intercalateNl]
      exact splitOnNl_no_nl_eq l (h l (List.mem_cons_self l []))
    | cons l2 rest2 =>
      have : intercalateNl (l :: l2 :: rest2) = l ++ '\n' :: intercalateNl (l2 :: rest2) := rfl
      rw [this, splitOnNl_append_nl l _ (h l (List.mem_cons_self l _))]
      rw [ih (by simp) fun m hm => h m (List.mem_cons_of_mem l hm)]

/-- Append `a` to the last element of a list of lines. -/
def modLast (a : List Char) : List (List Char) → List (List Char)
  | [] => [a]
  | [x] => [x ++ a]
  | x :: y :: r => x :: modLast a (y :: r)

theorem splitOnNl_append (m q : List Char) :
    splitOnNl (m ++ q) =
      modLast ((splitOnNl q).headI) (splitOnNl m) ++ (splitOnNl q).tail := by
  induction m with
  | nil =>
    rcases h : splitOnNl q with _ | ⟨hq, tq⟩
    · exact absurd h (splitOnNl_ne_nil q)
    · simp [splitOnNl, modLast, h]
  | cons c m' ih =>
    by_cases hc : c = '\n'
    · subst hc
      have lhs : splitOnNl (('\n' :: m') ++ q) = [] :: splitOnNl (m' ++ q) := by
        simp [splitOnNl]
      rcases hm' : splitOnNl m' with _ | ⟨h', t'⟩
      · exact absurd hm' (splitOnNl_ne_nil m')
      · have rhs1 : splitOnNl ('\n' :: m') = [] :: h' :: t' := by
          simp [splitOnNl, hm']
        rw [lhs, ih, hm', rhs1]
        simp [modLast]
    · have lhs : splitOnNl ((c :: m') ++ q) =
          match splitOnNl (m' ++ q) with
          | [] => [[c]]
          | l :: ls => (c :: l) :: ls := by
        simp [splitOnNl, hc]
      rcases hm' : splitOnNl m' with _ | ⟨h', t'⟩
      · exact absurd hm' (splitOnNl_ne_nil m')
      · have rhs1 : splitOnNl (c :: m') = (c :: h') :: t' := by
          simp [splitOnNl, hc, hm']
        rcases hmq : splitOnNl (m' ++ q) with _ | ⟨h2, t2⟩
        · exact absurd hmq (splitOnNl_ne_nil (m' ++ q))
        · rw [hm'] at ih
          rw [hmq] at ih
          rw [lhs, hmq, rhs1]
          cases t' with
          | nil =>
            simp only [modLast] at ih ⊢
            rcases List.cons_eq_cons.mp (by simpa using ih) with ⟨e1, e2⟩
            subst e1
            simp [e2]
          | cons y r =>
            simp only [modLast] at ih ⊢
            rcases List.cons_eq_cons.mp (by simpa using ih) with ⟨e1, e2⟩
            subst e1
            simp [e2]

theorem mem_modLast_or {x : List Char} {L : List (List Char)} (a : List Char)
    (hx : x ∈ L) : x ∈ modLast a L ∨ x ++ a ∈ modLast a L := by
  induction L with
  | nil => simp at hx
  | cons y r ih =>
    cases r with
    | nil =>
      simp at hx
      subst hx
      right
      simp [modLast]
    | cons z r' =>
      rcases List.mem_cons.1 hx with h | h
      · left
        simp [modLast, h]
      · rcases ih h with h1 | h1
        · left
          simp [modLast]
          right
          exact h1
        · right
          simp [modLast]
          right
          exact h1

theorem modLast_last_mem (a : List Char) (L : List (List Char)) :
    ∃ w, (w ++ a) ∈ modLast a L ∧ (w ∈ L ∨ L = []) := by
  induction L with
  | nil => exact ⟨[], by simp [modLast], Or.inr rfl⟩
  | cons y r ih =>
    cases r with
    | nil => exact ⟨y, by simp [modLast], Or.inl (by simp)⟩
    | cons z r' =>
      rcases ih with ⟨w, hw, hm⟩
      refine ⟨w, ?_, ?_⟩
      · simp only [modLast]
        exact List.mem_cons_of_mem y hw
      · rcases hm with h | h
        · exact Or.inl (List.mem_cons_of_mem y h)
        · simp at h

/-! ## Whitespace and trim lemmas -/

theorem all_ws_splitOnNl (s : List Char) (hs : s.all isWS = true) :
    ∀ l ∈ splitOnNl s, l.all isWS = true := by
  induction s with
  | nil =>
    intro l hl
    simp [splitOnNl] at hl
    simp [hl]
  | cons c cs ih =>
    intro l hl
    have hc : isWS c = true := by
      have := List.all_eq_true.1 hs c (List.mem_cons_self c cs)
      exact this
    have hcs : cs.all isWS = true :=
      List.all_eq_true.2 fun d hd => List.all_eq_true.1 hs d (List.mem_cons_of_mem c hd)
    simp only [splitOnNl] at hl
    split at hl
    · rcases List.mem_cons.1 hl with h | h
      · simp [h]
      · exact ih hcs l h
    · rcases h : splitOnNl cs with _ | ⟨l0, ls⟩
      · exact absurd h (splitOnNl_ne_nil cs)
      · rw [h] at hl
        rcases List.mem_cons.1 hl with h1 | h1
        · subst h1
          have hl0 : l0.all isWS = true := ih hcs l0 (h ▸ List.mem_cons_self l0 ls)
          simp [hc, hl0]
        · exact ih hcs l (h ▸ List.mem_cons_of_mem l0 h1)

theorem dropWhile_ws_append (p x : List Char) (hp : p.all isWS = true) :
    (p ++ x).dropWhile isWS = x.dropWhile isWS := by
  induction p with
  | nil => rfl
  | cons c cs ih =>
    have hc : isWS c = true := List.all_eq_true.1 hp c (List.mem_cons_self c cs)
    have hcs : cs.all isWS = true :=
      List.all_eq_true.2 fun d hd => List.all_eq_true.1 hp d (List.mem_cons_of_mem c hd)
    simp [List.dropWhile, hc, ih hcs]

theorem takeWhile_ws_all (s : List Char) : (s.takeWhile isWS).all isWS = true :=
  List.all_eq_true.2 fun _ hc => List.mem_takeWhile_imp hc

theorem dropWhile_head_not (p : Char → Bool) (l : List Char) (c : Char) (r : List Char)
    (h : l.dropWhile p = c :: r) : p c = false := by
  induction l with
  | nil => simp [List.dropWhile] at h
  | cons d ds ih =>
    by_cases hd : p d
    · simp [List.dropWhile, hd] at h
      exact ih h
    · simp [List.dropWhile, hd] at h
      rw [← h.1]
      exact Bool.not_eq_true _ ▸ (by simpa using hd)

theorem trim_decomp (s : List Char) :
    ∃ p q, p.all isWS = true ∧ q.all isWS = true ∧ s = p ++ trim s ++ q := by
  refine ⟨s.takeWhile isWS, ((s.dropWhile isWS).reverse.takeWhile isWS).reverse,
    takeWhile_ws_all s, by rw [List.all_reverse]; exact takeWhile_ws_all _, ?_⟩
  have h1 : s = s.takeWhile isWS ++ s.dropWhile isWS :=
    (List.takeWhile_append_dropWhile isWS s).symm
  have h2 : s.dropWhile isWS =
      trim s ++ ((s.dropWhile isWS).reverse.takeWhile isWS).reverse := by
    have h3 : (s.dropWhile isWS).reverse =
        (s.dropWhile isWS).reverse.takeWhile isWS ++ (s.dropWhile isWS).reverse.dropWhile isWS :=
      (List.takeWhile_append_dropWhile isWS _).symm
    have h4 := congrArg List.reverse h3
    rw [List.reverse_reverse, List.reverse_append] at h4
    exact h4
  rw [List.append_assoc, ← h2]
  exact h1

theorem dropWhile_append_of_ne_nil (p : Char → Bool) (l v : List Char)
    (h : l.dropWhile p ≠ []) : (l ++ v).dropWhile p = l.dropWhile p ++ v := by
  induction l with
  | nil => simp [List.dropWhile] at h
  | cons d ds ih =>
    by_cases hd : p d
    · simp only [List.dropWhile, hd] at h ⊢
      simpa [hd] using ih h
    · simp [List.dropWhile, hd]

theorem trim_ws_ext (u v l : List Char) (hu : u.all isWS = true) (hv : v.all isWS = true) :
    trim (u ++ l ++ v) = trim l := by
  unfold trim
  rw [List.append_assoc, dropWhile_ws_append u (l ++ v) hu]
  by_cases h : l.dropWhile isWS = []
  · have hl : ∀ x ∈ l, isWS x := List.dropWhile_eq_nil_iff.1 h
    have hlv : (l ++ v).dropWhile isWS = v.dropWhile isWS :=
      dropWhile_ws_append l v (List.all_eq_true.2 hl)
    have hv2 : v.dropWhile isWS = [] :=
      List.dropWhile_eq_nil_iff.2 fun x hx => List.all_eq_true.1 hv x hx
    rw [hlv, hv2, h]
  · rw [dropWhile_append_of_ne_nil isWS l v h, List.reverse_append,
      dropWhile_ws_append v.reverse _ (by rw [List.all_reverse]; exact hv)]

/-! ## Scanner step analysis -/

theorem appendLine_files (st : ScanState) (line : List Char) :
    (appendLine st line).files = st.files := by
  unfold appendLine
  rcases h : st.currentFile with _ | p
  · rfl
  · by_cases hp : p.isEmpty = true <;> simp [hp]

theorem appendLine_currentFile (st : ScanState) (line : List Char) :
    (appendLine st line).currentFile = st.currentFile := by
  unfold appendLine
  rcases h : st.currentFile with _ | p
  · exact h
  · by_cases hp : p.isEmpty = true <;> simp [hp, h]

theorem appendLine_inCodeBlock (st : ScanState) (line : List Char) :
    (appendLine st line).inCodeBlock = st.inCodeBlock := by
  unfold appendLine
  rcases h : st.currentFile with _ | p
  · rfl
  · by_cases hp : p.isEmpty = true <;> simp [hp]

theorem appendLine_content_sub (st : ScanState) (line l : List Char)
    (h : l ∈ (appendLine st line).currentContent) :
    l ∈ st.currentContent ∨ l = line := by
  rcases hcf : st.currentFile with _ | p
  · unfold appendLine at h
    rw [hcf] at h
    exact Or.inl h
  · unfold appendLine at h
    rw [hcf] at h
    by_cases hp : p.isEmpty = true
    · simp only [hp, if_true] at h
      exact Or.inl h
    · simp only [hp, if_false] at h
      simp at h
      rcases h with h | h
      · exact Or.inl h
      · exact Or.inr h

theorem openFile_inCodeBlock (st : ScanState) (cap : List Char) :
    (openFile st cap).inCodeBlock = st.inCodeBlock := rfl

/-- Exhaustive case analysis of one scanner step, recording which rule fired. -/
theorem step_cases (st : ScanState) (line : List Char) :
    (step st line = st ∧ st.skipNext = true ∧ (trim line).isEmpty = true) ∨
    (step st line = { st with skipNext := false, inCodeBlock := !st.inCodeBlock } ∧
      isCodeBlockLine line = true) ∨
    (step st line = { st with skipNext := false } ∧ isCodeBlockLine line = false ∧
      isFolderLine line = true) ∨
    ((∃ cap, step st line = openFile { st with skipNext := false } cap) ∧
      isCodeBlockLine line = false ∧ isMarkerLine line = true) ∨
    (step st line = appendLine { st with skipNext := false } line ∧
      isCodeBlockLine line = false ∧ isMarkerLine line = false ∧
      isFolderLine line = false) := by
  unfold step
  split
  · rename_i hskip
    exact Or.inl ⟨rfl, by simpa using hskip⟩
  · rename_i hskip
    split
    · rename_i hfence
      exact Or.inr (Or.inl ⟨rfl, hfence⟩)
    · rename_i hfence
      have hf : isCodeBlockLine line = false := by simpa using hfence
      split
      · rename_i hfold
        exact Or.inr (Or.inr (Or.inl ⟨rfl, hf, hfold⟩))
      · rename_i hfold
        have hfd : isFolderLine line = false := by simpa using hfold
        split
        · rename_i cap hc
          refine Or.inr (Or.inr (Or.inr (Or.inl ⟨⟨cap, rfl⟩, hf, ?_⟩)))
          simp only [isMarkerLine, hc, Option.isSome_some, Bool.true_or]
        · rename_i hc
          split
          · rename_i cap hb
            refine Or.inr (Or.inr (Or.inr (Or.inl ⟨⟨cap, rfl⟩, hf, ?_⟩)))
            simp only [isMarkerLine, hb, Option.isSome_some, Bool.true_or, Bool.or_true]
          · rename_i hb
            split
            · rename_i cap ha
              split
              · rename_i hd
                refine Or.inr (Or.inr (Or.inr (Or.inl ⟨⟨cap, rfl⟩, hf, ?_⟩)))
                simp only [isMarkerLine, ha, hd, Bool.or_true]
              · rename_i hd
                have hd' : cap.contains '.' = false := by simpa using hd
                refine Or.inr (Or.inr (Or.inr (Or.inr ⟨rfl, hf, ?_, hfd⟩)))
                simp only [isMarkerLine, hc, hb, ha, hd', Option.isSome_none,
                  Bool.or_self, Bool.or_false]
            · rename_i ha
              refine Or.inr (Or.inr (Or.inr (Or.inr ⟨rfl, hf, ?_, hfd⟩)))
              simp only [isMarkerLine, hc, hb, ha, Option.isSome_none,
                Bool.or_self, Bool.or_false]

/-! ## Lines of a trimmed string -/

theorem mem_lines_pad (mid p q : List Char) (hp : p.all isWS = true)
    (hq : q.all isWS = true) :
    ∀ l' ∈ splitOnNl mid, ∃ l ∈ splitOnNl (p ++ mid ++ q), ∃ u v,
      u.all isWS = true ∧ v.all isWS = true ∧ l = u ++ l' ++ v := by
  intro l' hl'
  have hq_ne := splitOnNl_ne_nil q
  have hqh_mem : (splitOnNl q).headI ∈ splitOnNl q := by
    rcases h : splitOnNl q with _ | ⟨a, b⟩
    · exact absurd h hq_ne
    · simp [List.headI]
  have hqh_ws : ((splitOnNl q).headI).all isWS = true := all_ws_splitOnNl q hq _ hqh_mem
  have step1 : ∃ l1 ∈ splitOnNl (mid ++ q), ∃ v, v.all isWS = true ∧ l1 = l' ++ v := by
    rw [splitOnNl_append mid q]
    rcases mem_modLast_or ((splitOnNl q).headI) hl' with h | h
    · exact ⟨l', List.mem_append_left _ h, [], by simp⟩
    · exact ⟨l' ++ (splitOnNl q).headI, List.mem_append_left _ h, _, hqh_ws, rfl⟩
  rcases step1 with ⟨l1, hl1, v, hv, hl1e⟩
  have hmn := splitOnNl_ne_nil (mid ++ q)
  have step2 : ∃ l2 ∈ splitOnNl (p ++ (mid ++ q)), ∃ u, u.all isWS = true ∧
      l2 = u ++ l1 := by
    rw [splitOnNl_append p (mid ++ q)]
    rw [← headI_cons_tail (splitOnNl (mid ++ q)) hmn] at hl1
    rcases List.mem_cons.1 hl1 with h | h
    · rcases modLast_last_mem ((splitOnNl (mid ++ q)).headI) (splitOnNl p) with ⟨w, hw, hwm⟩
      have hw_ws : w.all isWS = true := by
        rcases hwm with hm | hm
        · exact all_ws_splitOnNl p hp w hm
        · exact absurd hm (splitOnNl_ne_nil p)
      refine ⟨w ++ (splitOnNl (mid ++ q)).headI, List.mem_append_left _ hw, w, hw_ws, ?_⟩
      rw [h]
    · exact ⟨l1, List.mem_append_right _ h, [], by simp⟩
  rcases step2 with ⟨l2, hl2, u, hu, hl2e⟩
  refine ⟨l2, ?_, u, v, hu, hv, ?_⟩
  · rw [List.append_assoc]
    exact hl2
  · rw [hl2e, hl1e, List.append_assoc]

theorem trim_lines_sub (s : List Char) :
    ∀ l' ∈ splitOnNl (trim s), ∃ l ∈ splitOnNl s, trim l' = trim l := by
  intro l' hl'
  rcases trim_decomp s with ⟨p, q, hp, hq, hs⟩
  rcases mem_lines_pad (trim s) p q hp hq l' hl' with ⟨l, hl, u, v, hu, hv, hle⟩
  refine ⟨l, ?_, ?_⟩
  · rw [hs]
    exact hl
  · rw [hle, trim_ws_ext u v l' hu hv]

theorem trim_all_ws_nil (c : List Char) (h : (trim c).all isWS = true) : trim c = [] := by
  unfold trim at h ⊢
  rcases hv : (c.dropWhile isWS).reverse.dropWhile isWS with _ | ⟨d, r⟩
  · simp [hv]
  · have hd : isWS d = false := dropWhile_head_not isWS _ d r hv
    rw [hv, List.all_reverse] at h
    have := List.all_eq_true.1 h d (List.mem_cons_self d r)
    rw [hd] at this
    exact absurd this (by simp)

/-! ## Content invariant: fence delimiter lines never reach any record -/

/-- A buffered content line: newline-free and not fence-shaped. -/
def LineOK (l : List Char) : Prop :=
  (∀ c ∈ l, c ≠ '\n') ∧ isCodeBlockLine l = false

/-- No line of a record's content is fence-shaped. -/
def RecOK (r : ParsedFile) : Prop :=
  ∀ l ∈ splitOnNl r.content.data, isCodeBlockLine l = false

/-- Scan invariant: all emitted records and all buffered lines are clean. -/
def StInv (st : ScanState) : Prop :=
  (∀ r ∈ st.files, RecOK r) ∧ (∀ l ∈ st.currentContent, LineOK l)

theorem isCodeBlockLine_congr (l l' : List Char) (h : trim l' = trim l) :
    isCodeBlockLine l' = isCodeBlockLine l := by
  unfold isCodeBlockLine
  rw [h]

theorem content_lines_ok (buf : List (List Char)) (hbuf : ∀ l ∈ buf, LineOK l) :
    ∀ l' ∈ splitOnNl (trim (intercalateNl buf)), isCodeBlockLine l' = false := by
  intro l' hl'
  rcases trim_lines_sub (intercalateNl buf) l' hl' with ⟨l, hl, htr⟩
  rw [isCodeBlockLine_congr l l' htr]
  cases hb : buf with
  | nil =>
    subst hb
    simp only [intercalateNl, splitOnNl] at hl
    simp only [List.mem_singleton] at hl
    subst hl
    rfl
  | cons b bs =>
    rw [splitOnNl_intercalateNl buf (by rw [hb]; simp)
      (fun m hm => (hbuf m hm).1)] at hl
    exact (hbuf l hl).2

theorem flush_ok (st : ScanState) (h : StInv st) :
    ∀ r ∈ flushCurrent st, RecOK r := by
  intro r hr
  unfold flushCurrent at hr
  rcases hcf : st.currentFile with _ | p
  · rw [hcf] at hr
    simp at hr
  · rw [hcf] at hr
    have hr' : r ∈ (if p.isEmpty = true then ([] : List ParsedFile)
        else [⟨String.mk p, String.mk (trim (intercalateNl st.currentContent))⟩]) := hr
    by_cases hp : p.isEmpty = true
    · rw [if_pos hp] at hr'
      simp at hr'
    · rw [if_neg hp] at hr'
      simp only [List.mem_singleton] at hr'
      subst hr'
      intro l hl
      exact content_lines_ok st.currentContent h.2 l hl

theorem StInv_step (st : ScanState) (line : List Char)
    (hln : ∀ c ∈ line, c ≠ '\n') (h : StInv st) : StInv (step st line) := by
  rcases step_cases st line with ⟨h1, _⟩ | ⟨h1, _⟩ | ⟨h1, _⟩ |
      ⟨⟨cap, h1⟩, _, _⟩ | ⟨h1, hf, _, _⟩ <;> rw [h1]
  · exact h
  · exact ⟨h.1, h.2⟩
  · exact ⟨h.1, h.2⟩
  · constructor
    · intro r hr
      simp only [openFile] at hr
      rcases List.mem_append.1 hr with hr | hr
      · exact h.1 r hr
      · exact flush_ok { st with skipNext := false } ⟨h.1, h.2⟩ r hr
    · intro l hl
      simp [openFile] at hl
  · constructor
    · intro r hr
      rw [appendLine_files] at hr
      exact h.1 r hr
    · intro l hl
      rcases appendLine_content_sub _ _ _ hl with hl | hl
      · exact h.2 l hl
      · subst hl
        exact ⟨hln, hf⟩

theorem StInv_foldl (lines : List (List Char)) (st : ScanState)
    (hln : ∀ l ∈ lines, ∀ c ∈ l, c ≠ '\n') (h : StInv st) :
    StInv (lines.foldl step st) := by
  induction lines generalizing st with
  | nil => exact h
  | cons l ls ih =>
    exact ih (step st l)
      (fun m hm => hln m (List.mem_cons_of_mem l hm))
      (StInv_step st l (hln l (List.mem_cons_self l ls)) h)

theorem parseResponse_no_fence (s : String) :
    ∀ r ∈ parseResponse s, ∀ l ∈ splitOnNl r.content.data,
      isCodeBlockLine l = false := by
  intro r hr
  unfold parseResponse at hr
  have hinv : StInv ((splitOnNl s.data).foldl step initState) :=
    StInv_foldl (splitOnNl s.data) initState
      (fun l hl c hc => mem_splitOnNl_no_nl s.data l hl c hc)
      ⟨by intro r hr; simp [initState] at hr, by intro l hl; simp [initState] at hl⟩
  rcases List.mem_append.1 hr with hr | hr
  · exact hinv.1 r hr
  · exact flush_ok _ hinv r hr

/-! ## Path invariant: every emitted path is nonempty and not all-whitespace -/

/-- Good path: nonempty and containing a non-whitespace character. -/
def PathOK (r : ParsedFile) : Prop :=
  r.path ≠ "" ∧ r.path.data.all isWS = false

/-- Scan invariant for paths: emitted records have good paths, and the open
path, when present, is the trim of some captured token. -/
def PathInv (st : ScanState) : Prop :=
  (∀ r ∈ st.files, PathOK r) ∧ (∀ p, st.currentFile = some p → ∃ c, p = trim c)

theorem flushed_PathOK (st : ScanState) (h : PathInv st) :
    ∀ r ∈ flushCurrent st, PathOK r := by
  intro r hr
  unfold flushCurrent at hr
  rcases hcf : st.currentFile with _ | p
  · rw [hcf] at hr
    simp at hr
  · rw [hcf] at hr
    have hr' : r ∈ (if p.isEmpty = true then ([] : List ParsedFile)
        else [⟨String.mk p, String.mk (trim (intercalateNl st.currentContent))⟩]) := hr
    by_cases hp : p.isEmpty = true
    · rw [if_pos hp] at hr'
      simp at hr'
    · rw [if_neg hp] at hr'
      simp only [List.mem_singleton] at hr'
      subst hr'
      have hpn : p ≠ [] := by simpa using hp
      rcases h.2 p hcf with ⟨c, hc⟩
      constructor
      · intro he
        exact hpn (congrArg String.data he)
      · cases hall : p.all isWS with
        | false => rfl
        | true =>
          rw [hc] at hall
          rw [trim_all_ws_nil c hall] at hc
          exact absurd hc hpn

theorem PathInv_step (st : ScanState) (line : List Char) (h : PathInv st) :
    PathInv (step st line) := by
  rcases step_cases st line with ⟨h1, _⟩ | ⟨h1, _⟩ | ⟨h1, _⟩ |
      ⟨⟨cap, h1⟩, _, _⟩ | ⟨h1, _, _, _⟩ <;> rw [h1]
  · exact h
  · exact ⟨h.1, h.2⟩
  · exact ⟨h.1, h.2⟩
  · constructor
    · intro r hr
      simp only [openFile] at hr
      rcases List.mem_append.1 hr with hr | hr
      · exact h.1 r hr
      · exact flushed_PathOK { st with skipNext := false } ⟨h.1, h.2⟩ r hr
    · intro p hp
      simp only [openFile] at hp
      exact ⟨cap, (Option.some_injective _ hp.symm)⟩
  · constructor
    · intro r hr
      rw [appendLine_files] at hr
      exact h.1 r hr
    · intro p hp
      rw [appendLine_currentFile] at hp
      exact h.2 p hp

theorem PathInv_foldl (lines : List (List Char)) (st : ScanState) (h : PathInv st) :
    PathInv (lines.foldl step st) := by
  induction lines generalizing st with
  | nil => exact h
  | cons l ls ih => exact ih (step st l) (PathInv_step st l h)

theorem parseResponse_paths (s : String) :
    ∀ r ∈ parseResponse s, PathOK r := by
  intro r hr
  unfold parseResponse at hr
  have hinv : PathInv ((splitOnNl s.data).foldl step initState) :=
    PathInv_foldl (splitOnNl s.data) initState
      ⟨by intro r hr; simp [initState] at hr, by intro p hp; simp [initState] at hp⟩
  rcases List.mem_append.1 hr with hr | hr
  · exact hinv.1 r hr
  · exact flushed_PathOK _ hinv r hr

/-! ## No-marker invariant: without marker lines nothing is ever produced -/

theorem NoMarker_step (st : ScanState) (line : List Char)
    (hmk : isMarkerLine line = false)
    (h : st.files = [] ∧ st.currentFile = none) :
    (step st line).files = [] ∧ (step st line).currentFile = none := by
  rcases step_cases st line with ⟨h1, _⟩ | ⟨h1, _⟩ | ⟨h1, _⟩ |
      ⟨⟨cap, h1⟩, _, hm⟩ | ⟨h1, _, _, _⟩ <;> rw [h1]
  · exact h
  · exact ⟨h.1, h.2⟩
  · exact ⟨h.1, h.2⟩
  · rw [hmk] at hm
    exact absurd hm (by simp)
  · rw [appendLine_files, appendLine_currentFile]
    exact ⟨h.1, h.2⟩

theorem NoMarker_foldl (lines : List (List Char)) (st : ScanState)
    (hmk : ∀ l ∈ lines, isMarkerLine l = false)
    (h : st.files = [] ∧ st.currentFile = none) :
    (lines.foldl step st).files = [] ∧ (lines.foldl step st).currentFile = none := by
  induction lines generalizing st with
  | nil => exact h
  | cons l ls ih =>
    exact ih (step st l)
      (fun m hm => hmk m (List.mem_cons_of_mem l hm))
      (NoMarker_step st l (hmk l (List.mem_cons_self l ls)) h)

/-! ## Step-level helper lemmas -/

theorem step_skip_eq (st : ScanState) (line : List Char)
    (h1 : st.skipNext = true) (h2 : (trim line).isEmpty = true) :
    step st line = st := by
  unfold step
  rw [if_pos (by rw [h1, h2]; rfl)]

theorem step_append_eq (st : ScanState) (line : List Char) (p : List Char)
    (hns : ¬(st.skipNext = true ∧ (trim line).isEmpty = true))
    (hf : isCodeBlockLine line = false)
    (hfd : isFolderLine line = false)
    (hmk : isMarkerLine line = false)
    (hcf : st.currentFile = some p) (hpn : p ≠ []) :
    step st line =
      { st with skipNext := false, currentContent := st.currentContent ++ [line] } := by
  have hpe : p.isEmpty = false := by
    cases p with
    | nil => exact absurd rfl hpn
    | cons a b => rfl
  rcases step_cases st line with ⟨_, hsk, hbl⟩ | ⟨_, hfe⟩ | ⟨_, _, hfo⟩ |
      ⟨_, _, hm⟩ | ⟨h1, _, _, _⟩
  · exact absurd ⟨hsk, hbl⟩ hns
  · rw [hf] at hfe
    exact absurd hfe (by simp)
  · rw [hfd] at hfo
    exact absurd hfo (by simp)
  · rw [hmk] at hm
    exact absurd hm (by simp)
  · rw [h1]
    unfold appendLine
    simp only [hcf, hpe]
    rfl

theorem step_fence_iff (st : ScanState) (line : List Char)
    (hns : ¬(st.skipNext = true ∧ (trim line).isEmpty = true)) :
    (((step st line).inCodeBlock = !st.inCodeBlock) ↔ isCodeBlockLine line = true) ∧
    (isCodeBlockLine line = true →
      step st line = { st with skipNext := false, inCodeBlock := !st.inCodeBlock }) := by
  rcases step_cases st line with ⟨h1, hsk, hbl⟩ | ⟨h1, hfe⟩ | ⟨h1, hfe, _⟩ |
      ⟨⟨cap, h1⟩, hfe, _⟩ | ⟨h1, hfe, _, _⟩
  · exact absurd ⟨hsk, hbl⟩ hns
  · exact ⟨⟨fun _ => hfe, fun _ => by rw [h1]⟩, fun _ => h1⟩
  · refine ⟨⟨fun htog => ?_, fun hc => ?_⟩, fun hc => ?_⟩
    · rw [h1] at htog
      cases hb : st.inCodeBlock <;> rw [hb] at htog <;> simp at htog
    · rw [hfe] at hc
      exact absurd hc (by simp)
    · rw [hfe] at hc
      exact absurd hc (by simp)
  · refine ⟨⟨fun htog => ?_, fun hc => ?_⟩, fun hc => ?_⟩
    · rw [h1] at htog
      rw [openFile_inCodeBlock] at htog
      cases hb : st.inCodeBlock <;> rw [hb] at htog <;> simp at htog
    · rw [hfe] at hc
      exact absurd hc (by simp)
    · rw [hfe] at hc
      exact absurd hc (by simp)
  · refine ⟨⟨fun htog => ?_, fun hc => ?_⟩, fun hc => ?_⟩
    · rw [h1, appendLine_inCodeBlock] at htog
      cases hb : st.inCodeBlock <;> rw [hb] at htog <;> simp at htog
    · rw [hfe] at hc
      exact absurd hc (by simp)
    · rw [hfe] at hc
      exact absurd hc (by simp)

/-! ## Claims -/

/-- Claim C1, counterexample: the plain dashed divider line `--- divider ---`
does open a file — parse returns a record whose path is the dotless token
`divider`, contradicting the claim that no rule recognizes such a line. -/
theorem C1_counterexample :
    ∃ r ∈ parseResponse "--- divider ---\nhello", r.path = "divider" := by decide

/-- Claim C1 as amended: a plain dashed divider line is recognized by the
bracketed-marker rule (whose brackets are optional in the pattern), which
captures the bare token with no dot requirement; `--- divider ---` followed
by `hello` therefore yields exactly the record with path `divider`. -/
theorem C1_amended :
    fileMarkerMatch ("--- divider ---".data) = some ("divider".data) ∧
    parseResponse "--- divider ---\nhello" = [⟨"divider", "hello"⟩] := by decide

/-- Claim C2, counterexample: the line `*/` lies between fence delimiters
while file `a.c` is open and is neither a marker nor a fence line, yet it is
dropped (by the decorative slash-tail rule), so it appears in no record. -/
theorem C2_counterexample :
    parseResponse "--- [a.c] ---\n```\n*/\n```\nx" = [⟨"a.c", "x"⟩] ∧
    ∀ r ∈ parseResponse "--- [a.c] ---\n```\n*/\n```\nx",
      hasSub ("*/".data) r.content.data = false := by decide

/-- Claim C2 as amended: fence delimiter lines never appear in any returned
record's content; and a line between fences that is not a marker line, not a
decorative tree/slash line, and not a blank line consumed by the post-marker
skip flag is, while a nonempty file is open, appended unmodified to that
file's accumulated lines (appearing in the final content up to the single
leading/trailing trim). -/
theorem C2_amended :
    (∀ s : String, ∀ r ∈ parseResponse s, ∀ l ∈ splitOnNl r.content.data,
      isCodeBlockLine l = false) ∧
    (∀ (st : ScanState) (line p : List Char), st.inCodeBlock = true →
      ¬(st.skipNext = true ∧ (trim line).isEmpty = true) →
      isCodeBlockLine line = false → isFolderLine line = false →
      isMarkerLine line = false → st.currentFile = some p → p ≠ [] →
      step st line =
        { st with skipNext := false,
                  currentContent := st.currentContent ++ [line] }) :=
  ⟨parseResponse_no_fence,
   fun st line p _ hns hf hfd hmk hcf hpn =>
     step_append_eq st line p hns hf hfd hmk hcf hpn⟩

/-- Witness for C2: both conjuncts applied at concrete inputs. -/
theorem C2_amended_witness :
    isCodeBlockLine ("x".data) = false ∧
    step ⟨[], some ("a.txt".data), [], true, false⟩ ("hello".data) =
      ⟨[], some ("a.txt".data), [("hello".data)], true, false⟩ :=
  ⟨C2_amended.1 "--- [a.txt] ---\nx" ⟨"a.txt", "x"⟩ (by decide) ("x".data) (by decide),
   C2_amended.2 ⟨[], some ("a.txt".data), [], true, false⟩ ("hello".data)
     ("a.txt".data) rfl (by decide) (by decide) (by decide) (by decide) rfl
     (by decide)⟩

/-- Claim C3, counterexample: the whitespace-token marker line `--- [ ] ---`
is not treated as ordinary content of the open file `a.txt`; instead the open
file is flushed with only the content before that line, and the following
line `more` is discarded rather than accumulated. -/
theorem C3_counterexample :
    parseResponse "--- [a.txt] ---\nhello\n--- [ ] ---\nmore" =
      [⟨"a.txt", "hello"⟩] := by decide

/-- Claim C3 as amended: `--- [ ] ---` does match the bracketed-marker rule,
capturing the whitespace token; this flushes the open file and sets the
current path to the empty string, which JS truthiness treats as "no open
file", so all subsequent non-marker lines are discarded. -/
theorem C3_amended :
    fileMarkerMatch ("--- [ ] ---".data) = some (" ".data) ∧
    ((splitOnNl ("--- [a.txt] ---\nhello\n--- [ ] ---").data).foldl step
      initState).files = [⟨"a.txt", "hello"⟩] ∧
    ((splitOnNl ("--- [a.txt] ---\nhello\n--- [ ] ---").data).foldl step
      initState).currentFile = some [] ∧
    parseResponse "--- [a.txt] ---\nhello\n--- [ ] ---\nmore\nlines" =
      [⟨"a.txt", "hello"⟩] := by decide

/-- Claim C4, counterexample: the multi-word comment line does open a file —
the capture `(.+\.\w+)` admits spaces, so the whole phrase becomes the path. -/
theorem C4_counterexample :
    ∃ r ∈ parseResponse "// see the release notes v1.txt\nhello",
      r.path = "see the release notes v1.txt" := by decide

/-- Claim C4 as amended: the comment-style rule requires only `//`, at least
one whitespace, then any text (spaces allowed) ending in a dot followed by
word characters; `// see the release notes v1.txt` therefore opens a file
whose path is the entire phrase. -/
theorem C4_amended :
    commentFileMatch ("// see the release notes v1.txt".data) =
      some ("see the release notes v1.txt".data) ∧
    parseResponse "// see the release notes v1.txt\nhello" =
      [⟨"see the release notes v1.txt", "hello"⟩] := by decide

/-- Claim C5, counterexample: a trimmed line that merely starts with three
backticks but continues with further material is treated as a fence
delimiter — it toggles the fence state and is discarded, not appended. -/
theorem C5_counterexample :
    isCodeBlockLine ("```js const x = 1".data) = true ∧
    parseResponse "--- [a.txt] ---\n```js const x = 1\nend" =
      [⟨"a.txt", "end"⟩] := by decide

/-- Claim C5 as amended: outside the skip-blank shortcut, a line toggles the
fence state exactly when its trimmed text starts with three backticks (the
pattern is unanchored at the end), and such a line only toggles the flag and
is discarded. -/
theorem C5_amended (st : ScanState) (line : List Char)
    (hns : ¬(st.skipNext = true ∧ (trim line).isEmpty = true)) :
    (((step st line).inCodeBlock = !st.inCodeBlock) ↔ isCodeBlockLine line = true) ∧
    (isCodeBlockLine line = true →
      step st line = { st with skipNext := false, inCodeBlock := !st.inCodeBlock }) :=
  step_fence_iff st line hns

/-- Witness for C5 at a concrete state and line. -/
theorem C5_amended_witness :
    (((step initState ("```js const x = 1".data)).inCodeBlock =
        !initState.inCodeBlock) ↔
      isCodeBlockLine ("```js const x = 1".data) = true) ∧
    (isCodeBlockLine ("```js const x = 1".data) = true →
      step initState ("```js const x = 1".data) =
        { initState with skipNext := false, inCodeBlock := !initState.inCodeBlock }) :=
  C5_amended initState ("```js const x = 1".data) (by decide)

/-- Claim C6, counterexample: after the marker for `a.txt` and one blank
line, the skip flag is still set (it was not cleared when the blank was
consumed), and the second blank line was skipped too, not appended. -/
theorem C6_counterexample :
    ((splitOnNl ("--- [a.txt] ---\n\n").data).foldl step initState).skipNext = true ∧
    ((splitOnNl ("--- [a.txt] ---\n\n").data).foldl step initState).currentContent
      = [] := by decide

/-- Claim C6 as amended: when the skip flag is set and the line is blank, the
scanner consumes the line leaving the whole state — including the flag —
unchanged; the flag therefore suppresses every blank line in the run
immediately following a marker and is cleared only at the first non-blank
line. -/
theorem C6_amended (st : ScanState) (line : List Char)
    (h1 : st.skipNext = true) (h2 : (trim line).isEmpty = true) :
    step st line = st :=
  step_skip_eq st line h1 h2

/-- Witness for C6: a blank line under a set flag changes nothing. -/
theorem C6_amended_witness :
    step ⟨[], some ("a.txt".data), [], false, true⟩ [] =
      ⟨[], some ("a.txt".data), [], false, true⟩ :=
  C6_amended ⟨[], some ("a.txt".data), [], false, true⟩ [] rfl rfl

/-- Claim C7: the spec's worked example parses to exactly the two stated
records, in order. -/
theorem C7_example_exact :
    parseResponse "--- [a/b.txt] ---\nhello\nworld\n--- [c.txt] ---\nbye" =
      [⟨"a/b.txt", "hello\nworld"⟩, ⟨"c.txt", "bye"⟩] := by decide

/-- Claim C8: if no line of the input is recognized by any of the three
marker rules, parse returns the empty sequence (the embedding is a total
function, so no error is possible). -/
theorem C8_no_marker_empty (s : String)
    (h : ∀ l ∈ splitOnNl s.data, isMarkerLine l = false) :
    parseResponse s = [] := by
  have h2 := NoMarker_foldl (splitOnNl s.data) initState h ⟨rfl, rfl⟩
  show (List.foldl step initState (splitOnNl s.data)).files ++
      flushCurrent (List.foldl step initState (splitOnNl s.data)) = []
  rw [h2.1]
  simp [flushCurrent, h2.2]

/-- Witness for C8 on a marker-free input. -/
theorem C8_witness : parseResponse "hello\nworld" = [] :=
  C8_no_marker_empty "hello\nworld" (by decide)

/-- Claim C9: every record returned by parse has a path that is nonempty and
not purely whitespace. -/
theorem C9_paths (s : String) :
    ∀ r ∈ parseResponse s, r.path ≠ "" ∧ r.path.data.all isWS = false :=
  fun r hr => parseResponse_paths s r hr

/-- Witness for C9 on a concrete record. -/
theorem C9_witness :
    (ParsedFile.mk "a.txt" "x").path ≠ "" ∧
    (ParsedFile.mk "a.txt" "x").path.data.all isWS = false :=
  C9_paths "--- [a.txt] ---\nx" ⟨"a.txt", "x"⟩ (by decide)

/-- Claim C10: saving an edit rebuilds an equal-length list in which every
entry keeps its path, the entries matching the selected path get the new
content, and all other entries are unchanged; the definition is a pure map
over the parsed list and never invokes the parser. -/
theorem C10_saveChanges (files : List ParsedFile) (sel newC : String) :
    (saveChanges files sel newC).length = files.length ∧
    ∀ (i : Nat) (h : i < files.length) (h2 : i < (saveChanges files sel newC).length),
      ((saveChanges files sel newC).get ⟨i, h2⟩).path = (files.get ⟨i, h⟩).path ∧
      ((saveChanges files sel newC).get ⟨i, h2⟩).content =
        (if (files.get ⟨i, h⟩).path = sel then newC else (files.get ⟨i, h⟩).content) := by
  constructor
  · exact List.length_map files _
  · intro i h h2
    simp only [saveChanges, List.get_eq_getElem, List.getElem_map]
    by_cases hp : files[i].path = sel
    · simp [hp]
    · simp [hp]

/-- Witness for C10 on a two-element list. -/
theorem C10_witness :
    (saveChanges [⟨"a.txt", "x"⟩, ⟨"b.txt", "y"⟩] "a.txt" "z").length =
      ([⟨"a.txt", "x"⟩, ⟨"b.txt", "y"⟩] : List ParsedFile).length ∧
    ((saveChanges [⟨"a.txt", "x"⟩, ⟨"b.txt", "y"⟩] "a.txt" "z").get
        ⟨0, by decide⟩).content = "z" := by
  have h := C10_saveChanges [⟨"a.txt", "x"⟩, ⟨"b.txt", "y"⟩] "a.txt" "z"
  refine ⟨h.1, ?_⟩
  have h2 := (h.2 0 (by decide) (by decide)).2
  simpa using h2
